import Mathlib

/-!
Verification development for the election ballot parser
(`election_ballot_parser.py`).  The parser is regex-driven, so we first build
a small backtracking regex engine faithful to Python `re` semantics for the
pattern shapes the parser uses (every quantifier in those patterns applies to
a single character class, so the engine is structurally recursive).  On top of
it we embed the parser's pure core: metadata extraction, header segmentation,
candidate extraction with the primary/fallback strategies, and record
assembly.
-/

namespace Ballot

/-! ### Character classes appearing in the source regexes -/

/-- Python `\s` (ASCII portion, which is all the parser's inputs use). -/
def isSpacePy (c : Char) : Bool :=
  c = ' ' || c = '\t' || c = '\n' || c = '\r' || c = '\x0b' || c = '\x0c'

/-- Python `\d`. -/
def isDigitPy (c : Char) : Bool := '0' ≤ c && c ≤ '9'

/-- Python `\w` (ASCII portion). -/
def isWordPy (c : Char) : Bool := c.isAlphanum || c = '_'

/-- Class `[A-ZÑ, ]` of the location regex (line 57). -/
def locCls (c : Char) : Bool := ('A' ≤ c && c ≤ 'Z') || c = 'Ñ' || c = ',' || c = ' '

/-- Class of the position-header regex (line 75): uppercase letters, the
character Ñ, space, comma, hyphen, slash. -/
def hdrCls (c : Char) : Bool :=
  ('A' ≤ c && c ≤ 'Z') || c = 'Ñ' || c = ' ' || c = ',' || c = '-' || c = '/'

/-- Class of candidate-name characters (lines 145, 158): uppercase letters,
the character Ñ, period, comma, apostrophe, space, hyphen, newline. -/
def nameCls (c : Char) : Bool :=
  ('A' ≤ c && c ≤ 'Z') || c = 'Ñ' || c = '.' || c = ',' || c = '\'' || c = ' '
    || c = '-' || c = '\n'

/-- `.` without DOTALL: any character except a newline. -/
def noNl (c : Char) : Bool := c ≠ '\n'

/-- `.` with DOTALL, and `[\s\S]`: any character. -/
def anyCh (_ : Char) : Bool := true

/-! ### Regular expressions

Abstract syntax restricted to the shapes used by the parser: literals,
character classes, concatenation, greedy/lazy counted repetition of a
character class, and capture groups. -/

inductive RE where
  | eps : RE
  | lit : Char → RE
  | cls : (Char → Bool) → RE
  | cat : RE → RE → RE
  | rep : (Char → Bool) → Nat → Option Nat → Bool → RE
  | group : Nat → RE → RE

/-- Concatenate a literal character list in front of nothing. -/
def reStr (l : List Char) : RE := l.foldr (fun c acc => RE.cat (RE.lit c) acc) RE.eps

/-- Length of the maximal prefix of `s` whose characters satisfy `p`. -/
def runLen (p : Char → Bool) : List Char → Nat
  | [] => 0
  | c :: cs => if p c then runLen p cs + 1 else 0

/-- Effective upper bound of a counted repetition given the maximal run. -/
def effHi : Option Nat → Nat → Nat
  | none, r => r
  | some h, r => min h r

/-- Consumption counts tried by a greedy repetition, in priority order. -/
def countsG (lo m : Nat) : List Nat := (List.range' lo (m + 1 - lo)).reverse

/-- Consumption counts tried by a lazy repetition, in priority order. -/
def countsL (lo m : Nat) : List Nat := List.range' lo (m + 1 - lo)

/-- Captured groups: group index paired with captured characters,
most recent first. -/
abbrev Caps := List (Nat × List Char)

/-- Result threaded through the matcher: remaining suffix and captures. -/
abbrev MRes := Option (List Char × Caps)

/-- Try consumption counts in order, committing to the first that lets the
continuation succeed (the backtracking priority of Python quantifiers). -/
def tryCounts (s : List Char) (c : Caps) (k : List Char → Caps → MRes) :
    List Nat → MRes
  | [] => none
  | j :: js =>
    match k (s.drop j) c with
    | some r => some r
    | none => tryCounts s c k js

/-- Backtracking matcher in continuation-passing style; returns the first
success in Python priority order (greedy longest-first, lazy shortest-first,
earlier choice points varying slowest). -/
def mtch : RE → List Char → Caps → (List Char → Caps → MRes) → MRes
  | RE.eps, s, c, k => k s c
  | RE.lit ch, s, c, k =>
    match s with
    | [] => none
    | x :: rest => if x = ch then k rest c else none
  | RE.cls p, s, c, k =>
    match s with
    | [] => none
    | x :: rest => if p x then k rest c else none
  | RE.cat r1 r2, s, c, k => mtch r1 s c (fun s1 c1 => mtch r2 s1 c1 k)
  | RE.rep p lo hi lz, s, c, k =>
    let m := effHi hi (runLen p s)
    tryCounts s c k (if lz then countsL lo m else countsG lo m)
  | RE.group n r, s, c, k =>
    mtch r s c (fun s1 c1 => k s1 ((n, s.take (s.length - s1.length)) :: c1))

/-- One regex match: start offset, end offset, captured groups. -/
structure MatchR where
  ms : Nat
  me : Nat
  caps : Caps
deriving DecidableEq, Repr

/-- Attempt a match anchored at offset `i` of `text`. -/
def matchAt (r : RE) (text : List Char) (i : Nat) : Option MatchR :=
  match mtch r (text.drop i) [] (fun rest caps => some (rest, caps)) with
  | some (rest, caps) => some ⟨i, i + ((text.drop i).length - rest.length), caps⟩
  | none => none

/-- Scan positions `i, i+1, ...` (`fuel` of them) for the leftmost match. -/
def searchGo (r : RE) (text : List Char) : Nat → Nat → Option MatchR
  | 0, _ => none
  | fuel + 1, i =>
    match matchAt r text i with
    | some m => some m
    | none => searchGo r text fuel (i + 1)

/-- Leftmost match at offset `pos` or later (Python `re.search` from `pos`). -/
def searchFrom (r : RE) (text : List Char) (pos : Nat) : Option MatchR :=
  searchGo r text (text.length + 1 - pos) pos

/-- Python `re.search`. -/
def search (r : RE) (text : List Char) : Option MatchR := searchFrom r text 0

/-- Worker for `finditer`: collect successive non-overlapping matches. -/
def fiGo (r : RE) (text : List Char) : Nat → Nat → List MatchR
  | 0, _ => []
  | fuel + 1, pos =>
    match searchFrom r text pos with
    | none => []
    | some m => m :: fiGo r text fuel (if m.me = m.ms then m.me + 1 else m.me)

/-- Python `re.finditer`: all non-overlapping matches, in document order. -/
def finditer (r : RE) (text : List Char) : List MatchR :=
  fiGo r text (text.length + 1) 0

/-- Captured text of group `n` (Python `match.group(n)`); the parser only
reads groups that always participate in the match. -/
def grp (m : MatchR) (n : Nat) : List Char := (m.caps.lookup n).getD []

/-! ### The parser's six regexes, translated from the source -/

/-- Line 57: `([A-ZÑ, ]+CITY.*?)\n`. -/
def locRE : RE :=
  RE.cat
    (RE.group 1
      (RE.cat (RE.rep locCls 1 none false)
        (RE.cat (reStr "CITY".data) (RE.rep noNl 0 none true))))
    (RE.lit '\n')

/-- Line 60: `Clustered Precinct ID:\s*(\w+)`. -/
def cpidRE : RE :=
  RE.cat (reStr "Clustered Precinct ID:".data)
    (RE.cat (RE.rep isSpacePy 0 none false) (RE.group 1 (RE.rep isWordPy 1 none false)))

/-- Line 64: `Precincts in Cluster:\s*([\s\S]*?)\n\n`. -/
def precRE : RE :=
  RE.cat (reStr "Precincts in Cluster:".data)
    (RE.cat (RE.rep isSpacePy 0 none false)
      (RE.cat (RE.group 1 (RE.rep anyCh 0 none true)) (reStr "\n\n".data)))

/-- Line 75: the position-header pattern — a group of `hdrCls` characters,
the literal text " / Vote for ", then a group of decimal digits. -/
def hdrRE : RE :=
  RE.cat (RE.group 1 (RE.rep hdrCls 1 none false))
    (RE.cat (reStr " / Vote for ".data) (RE.group 2 (RE.rep isDigitPy 1 none false)))

/-- Shared tail of the two candidate regexes after the number part:
`\s+(NAME+?)\s*\((PARTY*?)\)` with name-group index `g1`, party-group index
`g2` and party class `pcls` (`.` with or without DOTALL). -/
def candTail (g1 g2 : Nat) (pcls : Char → Bool) : RE :=
  RE.cat (RE.rep isSpacePy 1 none false)
    (RE.cat (RE.group g1 (RE.rep nameCls 1 none true))
      (RE.cat (RE.rep isSpacePy 0 none false)
        (RE.cat (RE.lit '(')
          (RE.cat (RE.group g2 (RE.rep pcls 0 none true)) (RE.lit ')')))))

/-- Line 145: the primary candidate pattern, compiled with DOTALL — a group
of 1 to 3 digits, a period, whitespace, a lazy group of name characters,
optional whitespace, then a parenthesized lazy group of arbitrary text. -/
def primaryRE : RE :=
  RE.cat (RE.group 1 (RE.rep isDigitPy 1 (some 3) false))
    (RE.cat (RE.lit '.') (candTail 2 3 anyCh))

/-- Line 158: the fallback candidate pattern, without DOTALL — the literal
text "1.", whitespace, then the same name and party capture shape, where
the party group cannot span newlines. -/
def fallbackRE : RE :=
  RE.cat (RE.lit '1') (RE.cat (RE.lit '.') (candTail 1 2 noNl))

/-! ### String helpers translated from the source -/

/-- Python `str.strip()` on a character list. -/
def stripChars (l : List Char) : List Char :=
  ((l.dropWhile isSpacePy).reverse.dropWhile isSpacePy).reverse

/-- Line 151/161: `name.replace("\n", " ")`. -/
def replaceNl (l : List Char) : List Char :=
  l.map (fun c => if c = '\n' then ' ' else c)

/-- Candidate-name normalization: `name.replace("\n", " ").strip()`. -/
def normalizeName (l : List Char) : List Char := stripChars (replaceNl l)

/-- Line 155/165: `party.strip() if party.strip() else "IND"`. -/
def partyOf (l : List Char) : String :=
  let p := stripChars l
  if p.isEmpty then "IND" else String.mk p

/-- Python `int` on a digit string (the parser only applies it to digit runs
produced by `\d` classes). -/
def parseNatChars (l : List Char) : Nat :=
  l.foldl (fun a c => a * 10 + (c.toNat - '0'.toNat)) 0

/-! ### Data model -/

/-- A candidate number as it appears in the emitted JSON: the primary
strategy stores the raw regex capture (a string), the fallback strategy
stores the literal integer 1, and the fixed reference data keeps whatever
scalar type the JSON files use. -/
inductive NumberVal where
  | str : String → NumberVal
  | int : Int → NumberVal
deriving DecidableEq, Repr

/-- Whether a number value is integer-typed. -/
def NumberVal.isInt : NumberVal → Bool
  | NumberVal.str _ => false
  | NumberVal.int _ => true

/-- Sort key used at line 168: `int(item["number"])`. -/
def numKey : NumberVal → Int
  | NumberVal.str s => (parseNatChars s.data : Int)
  | NumberVal.int n => n

structure Candidate where
  number : NumberVal
  name : String
  party : String
deriving DecidableEq, Repr

structure Instructions where
  english : String
  filipino : String
deriving DecidableEq, Repr

structure Position where
  position : String
  vote_for : Nat
  instructions : Instructions
  candidates : List Candidate
deriving DecidableEq, Repr

structure BallotRecord where
  election_date : String
  location : String
  clustered_precinct_id : String
  precincts_in_cluster : List String
  positions : List Position
deriving DecidableEq, Repr

/-- Lines 40-43. -/
def defaultInstructions : Instructions :=
  ⟨"Mark the inside of the circle beside the name of the desired candidate.",
   "Markahan ang loob ng bilog sa tabi ng nais ibotong kandidato."⟩

/-- Lines 111-118: `_create_senator_position`. -/
def senatorPosition (senators : List Candidate) : Position :=
  ⟨"SENATOR", 12, defaultInstructions, senators⟩

/-- Lines 120-130: `_create_partylist_position`. -/
def partylistPosition (partylist : List Candidate) : Position :=
  ⟨"PARTY LIST", 1,
   ⟨"For PARTY LIST CANDIDATES, CHECK THE BACK OF THIS BALLOT",
    "Para sa mga kandidato ng Party List, tingnan ang likod ng balotang ito"⟩,
   partylist⟩

/-! ### Candidate extraction (lines 132-169) -/

/-- Stable insertion into a list sorted by `numKey`, keeping earlier elements
first among equal keys (Python `list.sort` is stable). -/
def insertCand (c : Candidate) : List Candidate → List Candidate
  | [] => [c]
  | d :: ds => if numKey d.number < numKey c.number
      then d :: insertCand c ds else c :: d :: ds

/-- Stable sort ascending by `numKey` (line 168). -/
def sortCands : List Candidate → List Candidate
  | [] => []
  | c :: cs => insertCand c (sortCands cs)

/-- Build a candidate from one primary-strategy match (lines 149-156);
the number field keeps the raw string capture. -/
def mkPrimaryCand (m : MatchR) : Candidate :=
  ⟨NumberVal.str (String.mk (grp m 1)),
   String.mk (normalizeName (grp m 2)), partyOf (grp m 3)⟩

/-- Build the candidate from the fallback match (lines 158-166);
the number field is the literal integer 1. -/
def mkFallbackCand (m : MatchR) : Candidate :=
  ⟨NumberVal.int 1, String.mk (normalizeName (grp m 1)), partyOf (grp m 2)⟩

/-- All primary-strategy matches of a segment (line 146). -/
def primaryMatches (sec : List Char) : List MatchR := finditer primaryRE sec

/-- The fallback single match of a segment (line 158). -/
def fallbackMatch (sec : List Char) : Option MatchR := search fallbackRE sec

/-- Lines 132-169: `_extract_candidates_from_section`. -/
def extractCandidates (sec : List Char) : List Candidate :=
  let ms := primaryMatches sec
  let cands :=
    if ms.isEmpty then
      match fallbackMatch sec with
      | some m => [mkFallbackCand m]
      | none => []
    else ms.map mkPrimaryCand
  sortCands cands

/-! ### Header segmentation and record assembly (lines 45-105) -/

/-- Pair each header match with its segment's end offset: the next match's
start, or the text length for the last match (line 86). -/
def segmentEnds (len : Nat) : List MatchR → List (MatchR × Nat)
  | [] => []
  | [m] => [(m, len)]
  | m :: m2 :: rest => (m, m2.ms) :: segmentEnds len (m2 :: rest)

/-- Python slice `text[a:b]`. -/
def slice (text : List Char) (a b : Nat) : List Char := (text.drop a).take (b - a)

/-- Stripped group-1 name of a header match (line 78). -/
def headerName (m : MatchR) : String := String.mk (stripChars (grp m 1))

/-- Lines 77-97: the loop over header matches, threading the seen-name set;
produces the discovered positions in encounter order. -/
def processHeaders (text : List Char) :
    List (MatchR × Nat) → List String → List Position
  | [], _ => []
  | (m, e) :: rest, seen =>
    let posName := headerName m
    let voteFor := parseNatChars (grp m 2)
    if posName ∈ seen then processHeaders text rest seen
    else
      let seen1 := posName :: seen
      let cands := extractCandidates (slice text m.me e)
      if cands.isEmpty then processHeaders text rest seen1
      else ⟨posName, voteFor, defaultInstructions, cands⟩ :: processHeaders text rest seen1

/-- All header matches of the document (line 75). -/
def headerMatches (text : List Char) : List MatchR := finditer hdrRE text

/-- The discovered (non-fixed) positions of a document, in document order. -/
def discoveredPositions (text : List Char) : List Position :=
  processHeaders text (segmentEnds text.length (headerMatches text))
    ["SENATOR", "PARTY LIST"]

/-- Lines 56-58: location metadata. -/
def extractLocation (text : List Char) : String :=
  match search locRE text with
  | some m => String.mk (stripChars (grp m 1))
  | none => "UNKNOWN"

/-- Lines 60-61: clustered precinct id metadata. -/
def extractCpid (text : List Char) : String :=
  match search cpidRE text with
  | some m => String.mk (grp m 1)
  | none => "UNKNOWN"

/-- Line 66: `replace(",,", ",")`, a left-to-right non-overlapping scan. -/
def collapseCommas : List Char → List Char
  | ',' :: ',' :: rest => ',' :: collapseCommas rest
  | c :: rest => c :: collapseCommas rest
  | [] => []

/-- Split a character list on commas. -/
def splitCommas (l : List Char) : List (List Char) :=
  (l.splitOn ',')

/-- Lines 63-67: precinct list metadata. -/
def extractPrecincts (text : List Char) : List String :=
  match search precRE text with
  | some m =>
    let raw := collapseCommas (grp m 1 |>.map (fun c => if c = '\n' then ',' else c))
    ((splitCommas raw).map stripChars).filter (fun p => !p.isEmpty) |>.map String.mk
  | none => []

/-- Lines 45-105: the pure core of `process_pdf`, from extracted text and the
two fixed reference lists to the assembled record. -/
def processText (text : List Char) (senators partylist : List Candidate) :
    BallotRecord :=
  { election_date := "MAY 12, 2025"
    location := extractLocation text
    clustered_precinct_id := extractCpid text
    precincts_in_cluster := extractPrecincts text
    positions := senatorPosition senators :: partylistPosition partylist ::
      discoveredPositions text }

/-! ### Auxiliary predicates and the declarative match relation -/

/-- Whether a character list contains two consecutive spaces. -/
def hasDoubleSpace : List Char → Bool
  | ' ' :: ' ' :: _ => true
  | _ :: rest => hasDoubleSpace rest
  | [] => false

/-- Declarative (big-step) matching relation: `Sat r s c t c1` says the
regex `r` can consume a prefix of `s`, leaving suffix `t`, turning the
capture list `c` into `c1`.  It records which consumptions are possible at
all, abstracting from the priority order of the backtracking matcher. -/
inductive Sat : RE → List Char → Caps → List Char → Caps → Prop where
  | eps {s : List Char} {c : Caps} : Sat RE.eps s c s c
  | lit {ch : Char} {rest : List Char} {c : Caps} :
      Sat (RE.lit ch) (ch :: rest) c rest c
  | cls {p : Char → Bool} {ch : Char} {rest : List Char} {c : Caps}
      (h : p ch = true) : Sat (RE.cls p) (ch :: rest) c rest c
  | rep {p : Char → Bool} {lo : Nat} {hi : Option Nat} {lz : Bool}
      {s : List Char} {c : Caps} (j : Nat) (hlo : lo ≤ j)
      (hhi : j ≤ effHi hi (runLen p s)) :
      Sat (RE.rep p lo hi lz) s c (s.drop j) c
  | cat {r1 r2 : RE} {s : List Char} {c : Caps} {t : List Char} {c1 : Caps}
      {u : List Char} {c2 : Caps} (h1 : Sat r1 s c t c1)
      (h2 : Sat r2 t c1 u c2) : Sat (RE.cat r1 r2) s c u c2
  | group {r : RE} {s : List Char} {c : Caps} {t : List Char} {c1 : Caps}
      {n : Nat} (h : Sat r s c t c1) :
      Sat (RE.group n r) s c t ((n, s.take (s.length - t.length)) :: c1)

/-- Structural language inclusion between the regex shapes we use: every
consumption possible on the left is possible on the right.  The `litRep`
constructor embeds a literal character into a counted class repetition that
admits one iteration, which is how the fallback pattern's literal "1" sits
inside the primary pattern's digit group. -/
inductive RLe : RE → RE → Prop where
  | eps : RLe RE.eps RE.eps
  | lit {ch : Char} : RLe (RE.lit ch) (RE.lit ch)
  | cls {p q : Char → Bool} (h : ∀ ch, p ch = true → q ch = true) :
      RLe (RE.cls p) (RE.cls q)
  | rep {p q : Char → Bool} {lo : Nat} {hi : Option Nat} {lz lz2 : Bool}
      (h : ∀ ch, p ch = true → q ch = true) :
      RLe (RE.rep p lo hi lz) (RE.rep q lo hi lz2)
  | cat {r1 r2 r3 r4 : RE} (h1 : RLe r1 r3) (h2 : RLe r2 r4) :
      RLe (RE.cat r1 r2) (RE.cat r3 r4)
  | group {r r2 : RE} {n n2 : Nat} (h : RLe r r2) :
      RLe (RE.group n r) (RE.group n2 r2)
  | litRep {p : Char → Bool} {ch : Char} {lo : Nat} {hi : Option Nat}
      {lz : Bool} {n : Nat} (hch : p ch = true) (hlo : lo ≤ 1)
      (hhi : ∀ h, hi = some h → 1 ≤ h) :
      RLe (RE.lit ch) (RE.group n (RE.rep p lo hi lz))

end Ballot

namespace Ballot

/-! ### Sorting lemmas for the candidate list -/

lemma mem_insertCand {x c : Candidate} : ∀ {l : List Candidate},
    x ∈ insertCand c l → x = c ∨ x ∈ l := by
  intro l
  induction l with
  | nil => intro h; simpa [insertCand] using h
  | cons d ds ih =>
    intro h
    simp only [insertCand] at h
    split at h
    · rcases List.mem_cons.mp h with h | h
      · exact Or.inr (h ▸ List.mem_cons_self d ds)
      · rcases ih h with h | h
        · exact Or.inl h
        · exact Or.inr (List.mem_cons_of_mem d h)
    · rcases List.mem_cons.mp h with h | h
      · exact Or.inl h
      · exact Or.inr h

lemma insertCand_mem {c : Candidate} : ∀ {l : List Candidate} {x},
    (x = c ∨ x ∈ l) → x ∈ insertCand c l := by
  intro l
  induction l with
  | nil => intro x h; rcases h with h | h
           · simp [insertCand, h]
           · cases h
  | cons d ds ih =>
    intro x h
    simp only [insertCand]
    split
    · rcases h with h | h
      · exact List.mem_cons_of_mem d (ih (Or.inl h))
      · rcases List.mem_cons.mp h with h | h
        · exact h ▸ List.mem_cons_self d _
        · exact List.mem_cons_of_mem d (ih (Or.inr h))
    · rcases h with h | h
      · exact h ▸ List.mem_cons_self c _
      · exact List.mem_cons_of_mem c h

lemma mem_sortCands {x : Candidate} : ∀ {l : List Candidate},
    x ∈ sortCands l ↔ x ∈ l := by
  intro l
  induction l with
  | nil => simp [sortCands]
  | cons c cs ih =>
    constructor
    · intro h
      rcases mem_insertCand (l := sortCands cs) h with h | h
      · exact h ▸ List.mem_cons_self c cs
      · exact List.mem_cons_of_mem c (ih.mp h)
    · intro h
      rcases List.mem_cons.mp h with h | h
      · exact insertCand_mem (Or.inl h)
      · exact insertCand_mem (Or.inr (ih.mpr h))

lemma pairwise_insertCand {c : Candidate} : ∀ {l : List Candidate},
    List.Pairwise (fun a b => numKey a.number ≤ numKey b.number) l →
    List.Pairwise (fun a b => numKey a.number ≤ numKey b.number) (insertCand c l) := by
  intro l
  induction l with
  | nil => intro _; simp [insertCand]
  | cons d ds ih =>
    intro h
    rcases List.pairwise_cons.mp h with ⟨hd, hds⟩
    simp only [insertCand]
    split
    · refine List.pairwise_cons.mpr ⟨?_, ih hds⟩
      intro x hx
      rcases mem_insertCand hx with hx | hx
      · subst hx; omega
      · exact hd x hx
    · refine List.pairwise_cons.mpr ⟨?_, h⟩
      intro x hx
      have hcd : numKey c.number ≤ numKey d.number := by omega
      rcases List.mem_cons.mp hx with hx | hx
      · subst hx; exact hcd
      · exact le_trans hcd (hd x hx)

lemma pairwise_sortCands : ∀ (l : List Candidate),
    List.Pairwise (fun a b => numKey a.number ≤ numKey b.number) (sortCands l) := by
  intro l
  induction l with
  | nil => simp [sortCands]
  | cons c cs ih => exact pairwise_insertCand ih

/-! ### Normalization lemmas -/

lemma mem_stripChars {x : Char} {l : List Char} (h : x ∈ stripChars l) : x ∈ l := by
  unfold stripChars at h
  have h1 : x ∈ (l.dropWhile isSpacePy).reverse.dropWhile isSpacePy :=
    List.mem_reverse.mp h
  have h2 : x ∈ (l.dropWhile isSpacePy).reverse :=
    (List.dropWhile_sublist isSpacePy).mem h1
  exact (List.dropWhile_sublist isSpacePy).mem (List.mem_reverse.mp h2)

lemma not_newline_mem_replaceNl (l : List Char) : '\n' ∉ replaceNl l := by
  intro h
  unfold replaceNl at h
  rcases List.mem_map.mp h with ⟨c, _, he⟩
  by_cases hc : c = '\n' <;> simp [hc] at he

lemma not_newline_mem_normalizeName (l : List Char) : '\n' ∉ normalizeName l := by
  intro h
  exact not_newline_mem_replaceNl l (mem_stripChars h)

/-! ### Shape of extracted candidates -/

lemma extractCandidates_mem_shape {sec : List Char} {c : Candidate}
    (h : c ∈ extractCandidates sec) :
    (primaryMatches sec ≠ [] ∧ ∃ m ∈ primaryMatches sec, c = mkPrimaryCand m)
    ∨ (primaryMatches sec = [] ∧
        ∃ m, fallbackMatch sec = some m ∧ c = mkFallbackCand m) := by
  unfold extractCandidates at h
  by_cases hp : (primaryMatches sec).isEmpty
  · right
    refine ⟨List.isEmpty_iff.mp hp, ?_⟩
    simp only [hp, if_true] at h
    cases hf : fallbackMatch sec with
    | none => simp [hf, sortCands] at h
    | some m =>
      simp only [hf] at h
      have := mem_sortCands.mp h
      simp at this
      exact ⟨m, rfl, this⟩
  · left
    constructor
    · intro he; exact hp (by simp [he])
    · simp only [hp, if_false] at h
      have := mem_sortCands.mp h
      rcases List.mem_map.mp this with ⟨m, hm, he⟩
      exact ⟨m, hm, he.symm⟩

/-- C6: for every segment and whichever extraction strategy fires, the
candidate list is sorted ascending by the numeric value of the ballot number
(the sort at line 168), regardless of match discovery order. -/
theorem extractCandidates_sorted (sec : List Char) :
    List.Pairwise (fun a b => numKey a.number ≤ numKey b.number)
      (extractCandidates sec) := by
  unfold extractCandidates
  exact pairwise_sortCands _

/-- C2 (amended): candidates produced by the primary repeating-pattern
strategy carry string-typed numbers (the raw regex capture), while the
fallback strategy emits the integer 1; discovered-position candidate numbers
are therefore not integers whenever the primary strategy fires. -/
theorem extractCandidates_number_types (sec : List Char) (c : Candidate)
    (h : c ∈ extractCandidates sec) :
    (primaryMatches sec ≠ [] ∧ ∃ s, c.number = NumberVal.str s)
    ∨ (primaryMatches sec = [] ∧ c.number = NumberVal.int 1) := by
  rcases extractCandidates_mem_shape h with ⟨hne, m, _, he⟩ | ⟨hni, m, _, he⟩
  · exact Or.inl ⟨hne, ⟨String.mk (grp m 1), by rw [he]; rfl⟩⟩
  · exact Or.inr ⟨hni, by rw [he]; rfl⟩

/-- C2 witness: the amended statement evaluated on a concrete one-candidate
segment, where the primary strategy fires and stores a string number. -/
theorem extractCandidates_number_types_witness :
    (primaryMatches "1. AB (X)".data ≠ [] ∧
      ∃ s, (Candidate.mk (NumberVal.str "1") "AB" "X").number = NumberVal.str s)
    ∨ (primaryMatches "1. AB (X)".data = [] ∧
      (Candidate.mk (NumberVal.str "1") "AB" "X").number = NumberVal.int 1) :=
  extractCandidates_number_types "1. AB (X)".data _ (by decide)

/-- C2 counterexample: on a well-formed segment the primary strategy emits
the candidate number as the string "1", not as an integer, refuting the
claim that extraction emits integer-typed numbers. -/
theorem extractCandidates_number_string_counterexample :
    extractCandidates "1. AB (X)".data = [⟨NumberVal.str "1", "AB", "X"⟩]
    ∧ (NumberVal.str "1").isInt = false := by decide

/-- C7 (amended): every extracted candidate name has each embedded line
break replaced by a single space and surrounding whitespace trimmed, so no
normalized name contains a line break; consecutive spaces can remain when a
space abuts a line break in the source. -/
theorem extractCandidates_name_no_newline (sec : List Char) (c : Candidate)
    (h : c ∈ extractCandidates sec) : '\n' ∉ c.name.data := by
  rcases extractCandidates_mem_shape h with ⟨_, m, _, he⟩ | ⟨_, m, _, he⟩
  · rw [he]; exact not_newline_mem_normalizeName _
  · rw [he]; exact not_newline_mem_normalizeName _

/-- C7 witness: the name wrapped across two lines in a concrete segment
normalizes to a single-space-joined string without line breaks. -/
theorem extractCandidates_name_no_newline_witness :
    '\n' ∉ (Candidate.mk (NumberVal.str "1") "JUAN DELA CRUZ" "IND").name.data :=
  extractCandidates_name_no_newline "1. JUAN DELA\nCRUZ (IND)".data _ (by decide)

/-- C7 counterexample: a space immediately before a wrapped line break
yields two consecutive spaces in the normalized name, refuting the claim
that no normalized name contains consecutive spaces introduced by
wrapping. -/
theorem extractCandidates_name_double_space_counterexample :
    (extractCandidates "1. JUAN DELA \nCRUZ (IND)".data).map Candidate.name
      = ["JUAN DELA  CRUZ"]
    ∧ hasDoubleSpace "JUAN DELA  CRUZ".data = true := by decide

end Ballot

namespace Ballot

/-! ### Invariants of the header-segmentation loop -/

lemma segmentEnds_fst_mem {len : Nat} : ∀ {ms : List MatchR} {pr : MatchR × Nat},
    pr ∈ segmentEnds len ms → pr.1 ∈ ms := by
  intro ms
  induction ms with
  | nil => intro pr h; simp [segmentEnds] at h
  | cons m tail ih =>
    intro pr h
    cases tail with
    | nil =>
      simp only [segmentEnds, List.mem_singleton] at h
      simp [h]
    | cons m2 rest =>
      simp only [segmentEnds, List.mem_cons] at h
      rcases h with h | h
      · simp [h]
      · exact List.mem_cons_of_mem m (ih h)

lemma processHeaders_skip_all (text : List Char) :
    ∀ (pairs : List (MatchR × Nat)) (seen : List String),
    (∀ pr ∈ pairs, headerName pr.1 ∈ seen) →
    processHeaders text pairs seen = [] := by
  intro pairs
  induction pairs with
  | nil => intro seen _; rfl
  | cons pr rest ih =>
    intro seen hall
    obtain ⟨m, e⟩ := pr
    have hm : headerName m ∈ seen := hall (m, e) (List.mem_cons_self _ _)
    simp only [processHeaders, hm, if_true]
    exact ih seen (fun q hq => hall q (List.mem_cons_of_mem _ hq))

lemma processHeaders_cands_ne (text : List Char) :
    ∀ (pairs : List (MatchR × Nat)) (seen : List String) (p : Position),
    p ∈ processHeaders text pairs seen → p.candidates ≠ [] := by
  intro pairs
  induction pairs with
  | nil => intro seen p h; simp [processHeaders] at h
  | cons pr rest ih =>
    intro seen p h
    obtain ⟨m, e⟩ := pr
    simp only [processHeaders] at h
    split at h
    · exact ih seen p h
    · split at h
      · exact ih _ p h
      · rcases List.mem_cons.mp h with h | h
        · subst h
          next hne =>
            intro hc
            exact hne (by simpa [List.isEmpty_iff] using hc)
        · exact ih _ p h

lemma processHeaders_names (text : List Char) :
    ∀ (pairs : List (MatchR × Nat)) (seen : List String),
    ((processHeaders text pairs seen).map Position.position).Nodup
    ∧ ∀ nm ∈ (processHeaders text pairs seen).map Position.position, nm ∉ seen := by
  intro pairs
  induction pairs with
  | nil => intro seen; simp [processHeaders]
  | cons pr rest ih =>
    intro seen
    obtain ⟨m, e⟩ := pr
    simp only [processHeaders]
    split
    · exact ih seen
    · next hseen =>
      split
      · rcases ih (headerName m :: seen) with ⟨hnd, hni⟩
        refine ⟨hnd, fun nm hnm hmemseen => ?_⟩
        exact hni nm hnm (List.mem_cons_of_mem _ hmemseen)
      · rcases ih (headerName m :: seen) with ⟨hnd, hni⟩
        simp only [List.map_cons]
        constructor
        · refine List.nodup_cons.mpr ⟨fun hmem => ?_, hnd⟩
          exact hni _ hmem (List.mem_cons_self _ _)
        · intro nm hnm
          rcases List.mem_cons.mp hnm with h | h
          · exact h ▸ hseen
          · intro hs
            exact hni nm h (List.mem_cons_of_mem _ hs)

lemma processHeaders_voteFor (text : List Char) :
    ∀ (pairs : List (MatchR × Nat)) (seen : List String) (p : Position),
    p ∈ processHeaders text pairs seen →
    ∃ pr ∈ pairs, p.vote_for = parseNatChars (grp pr.1 2) := by
  intro pairs
  induction pairs with
  | nil => intro seen p h; simp [processHeaders] at h
  | cons pr rest ih =>
    intro seen p h
    obtain ⟨m, e⟩ := pr
    simp only [processHeaders] at h
    split at h
    · rcases ih seen p h with ⟨q, hq, he⟩
      exact ⟨q, List.mem_cons_of_mem _ hq, he⟩
    · split at h
      · rcases ih _ p h with ⟨q, hq, he⟩
        exact ⟨q, List.mem_cons_of_mem _ hq, he⟩
      · rcases List.mem_cons.mp h with h | h
        · exact ⟨(m, e), List.mem_cons_self _ _, by rw [h]⟩
        · rcases ih _ p h with ⟨q, hq, he⟩
          exact ⟨q, List.mem_cons_of_mem _ hq, he⟩

/-- C1: the output record's positions begin with the fixed SENATOR position
(vote_for 12), then the fixed PARTY LIST position (vote_for 1), then the
discovered positions in document order of their headers; and when every
header match carries one of the two fixed names, the positions are exactly
the two fixed entries in that order. -/
theorem positions_order (text : List Char) (sens pls : List Candidate) :
    (processText text sens pls).positions
      = senatorPosition sens :: partylistPosition pls :: discoveredPositions text
    ∧ (senatorPosition sens).vote_for = 12
    ∧ (partylistPosition pls).vote_for = 1
    ∧ ((∀ m ∈ headerMatches text,
          headerName m ∈ (["SENATOR", "PARTY LIST"] : List String)) →
        (processText text sens pls).positions
          = [senatorPosition sens, partylistPosition pls]) := by
  refine ⟨rfl, rfl, rfl, fun hall => ?_⟩
  have hd : discoveredPositions text = [] := by
    unfold discoveredPositions
    refine processHeaders_skip_all text _ _ (fun pr hpr => ?_)
    exact hall pr.1 (segmentEnds_fst_mem hpr)
  show senatorPosition sens :: partylistPosition pls :: discoveredPositions text
      = [senatorPosition sens, partylistPosition pls]
  rw [hd]

/-- C1 witness: on an input with no header matches at all, the positions
are exactly the two fixed entries. -/
theorem positions_order_witness :
    (processText [] [] []).positions = [senatorPosition [], partylistPosition []] :=
  (positions_order [] [] []).2.2.2 (by decide)

/-- C3 (amended): every discovered position in the output has a non-empty
candidate list (a header whose segment yields zero candidates under both
strategies produces no Position), and the fixed positions carry the
reference lists unchanged, hence are non-empty whenever the reference lists
are; the code never checks the fixed lists themselves. -/
theorem positions_candidates_nonempty (text : List Char) (sens pls : List Candidate)
    (hs : sens ≠ []) (hp : pls ≠ []) (p : Position)
    (hmem : p ∈ (processText text sens pls).positions) : p.candidates ≠ [] := by
  rcases List.mem_cons.mp hmem with h | hmem
  · rw [h]; exact hs
  · rcases List.mem_cons.mp hmem with h | hmem
    · rw [h]; exact hp
    · exact processHeaders_cands_ne text _ _ p hmem

/-- C3 witness: the amended statement evaluated on a concrete record with
non-empty reference lists. -/
theorem positions_candidates_nonempty_witness :
    (senatorPosition [⟨NumberVal.int 1, "A", "B"⟩]).candidates ≠ [] :=
  positions_candidates_nonempty [] [⟨NumberVal.int 1, "A", "B"⟩]
    [⟨NumberVal.int 1, "A", "B"⟩] (by decide) (by decide) _ (by decide)

/-- C3 counterexample: with an empty senator reference list the fixed
SENATOR position is still included in the output with an empty candidate
sequence, refuting the claim for fixed positions. -/
theorem positions_empty_fixed_counterexample :
    senatorPosition [] ∈ (processText [] [] []).positions
    ∧ (senatorPosition []).candidates = [] := by decide

/-- C5: position names are unique within the output record: the seen set is
pre-seeded with the two fixed names and every newly matched name is added
before its segment is processed, so a duplicate header occurrence adds no
position and removes nothing. -/
theorem positions_names_nodup (text : List Char) (sens pls : List Candidate) :
    ((processText text sens pls).positions.map Position.position).Nodup := by
  have h := processHeaders_names text
    (segmentEnds text.length (headerMatches text)) ["SENATOR", "PARTY LIST"]
  rcases h with ⟨hnd, hni⟩
  show ("SENATOR" :: "PARTY LIST" ::
      (discoveredPositions text).map Position.position).Nodup
  refine List.nodup_cons.mpr ⟨?_, List.nodup_cons.mpr ⟨?_, hnd⟩⟩
  · intro hmem
    rcases List.mem_cons.mp hmem with h | h
    · exact absurd h (by decide)
    · exact hni _ h (by decide)
  · intro hmem
    exact hni _ hmem (by decide)

/-- C9 (amended): the fixed positions have vote_for 12 and 1; every
discovered position's vote_for is the decimal number parsed from its
header's digit capture — a natural number that the code never checks for
positivity, so it is 0 when the header reads "Vote for 0". -/
theorem voteFor_values (text : List Char) (sens pls : List Candidate) :
    (senatorPosition sens).vote_for = 12
    ∧ (partylistPosition pls).vote_for = 1
    ∧ ∀ p ∈ discoveredPositions text,
        ∃ m ∈ headerMatches text, p.vote_for = parseNatChars (grp m 2) := by
  refine ⟨rfl, rfl, fun p hp => ?_⟩
  rcases processHeaders_voteFor text _ _ p hp with ⟨pr, hpr, he⟩
  exact ⟨pr.1, segmentEnds_fst_mem hpr, he⟩

/-- C9 witness: the amended statement evaluated on a concrete document with
one discovered header. -/
theorem voteFor_values_witness :
    ∃ m ∈ headerMatches "MAYOR / Vote for 2\n1. AB (X)\n".data,
      (Position.mk "MAYOR" 2 defaultInstructions
        [⟨NumberVal.str "1", "AB", "X"⟩]).vote_for = parseNatChars (grp m 2) :=
  (voteFor_values "MAYOR / Vote for 2\n1. AB (X)\n".data [] []).2.2 _ (by decide)

/-- C9 counterexample: a header reading "Vote for 0" produces a discovered
position with vote_for 0, refuting the claim that vote_for is strictly
positive for every discovered position. -/
theorem voteFor_zero_counterexample :
    (processText "MAYOR / Vote for 0\n1. AB (X)\n".data [] []).positions.map
        (fun p => (p.position, p.vote_for))
      = [("SENATOR", 12), ("PARTY LIST", 1), ("MAYOR", 0)] := by decide

/-- C10 (amended): an empty input text is not surfaced as an error: the
parser silently produces a record with sentinel metadata, an empty precinct
list, and exactly the two fixed positions. -/
theorem emptyText_silent (sens pls : List Candidate) :
    processText [] sens pls
      = ⟨"MAY 12, 2025", "UNKNOWN", "UNKNOWN", [],
          [senatorPosition sens, partylistPosition pls]⟩ := rfl

/-- C10 counterexample: on empty input the parser returns a sentinel-only
record rather than surfacing a structured error, refuting the claim. -/
theorem emptyText_sentinel_counterexample :
    processText [] [] []
      = ⟨"MAY 12, 2025", "UNKNOWN", "UNKNOWN", [],
          [senatorPosition [], partylistPosition []]⟩ := by decide

end Ballot

namespace Ballot

/-! ### Soundness and completeness of the matcher w.r.t. `Sat` -/

lemma mem_countsG {lo m j : Nat} : j ∈ countsG lo m ↔ lo ≤ j ∧ j ≤ m := by
  unfold countsG
  rw [List.mem_reverse, List.mem_range'_1]
  omega

lemma mem_countsL {lo m j : Nat} : j ∈ countsL lo m ↔ lo ≤ j ∧ j ≤ m := by
  unfold countsL
  rw [List.mem_range'_1]
  omega

lemma tryCounts_eq_some {s : List Char} {c : Caps} {k : List Char → Caps → MRes}
    {res : List Char × Caps} :
    ∀ {js : List Nat}, tryCounts s c k js = some res →
      ∃ j ∈ js, k (s.drop j) c = some res := by
  intro js
  induction js with
  | nil => intro h; simp [tryCounts] at h
  | cons j js ih =>
    intro h
    simp only [tryCounts] at h
    cases hk : k (s.drop j) c with
    | some r =>
      rw [hk] at h
      exact ⟨j, List.mem_cons_self _ _, by rw [hk]; exact h⟩
    | none =>
      rw [hk] at h
      rcases ih h with ⟨j2, hj2, hk2⟩
      exact ⟨j2, List.mem_cons_of_mem _ hj2, hk2⟩

lemma tryCounts_isSome {s : List Char} {c : Caps} {k : List Char → Caps → MRes}
    {j : Nat} : ∀ {js : List Nat}, j ∈ js → (k (s.drop j) c).isSome →
    (tryCounts s c k js).isSome := by
  intro js
  induction js with
  | nil => intro hj; cases hj
  | cons j0 js ih =>
    intro hj hk
    simp only [tryCounts]
    rcases List.mem_cons.mp hj with he | hm
    · subst he
      cases hk0 : k (s.drop j) c with
      | some r => simp
      | none => rw [hk0] at hk; simp at hk
    · cases hk0 : k (s.drop j0) c with
      | some r => simp
      | none => exact ih hm hk

lemma runLen_mono {p q : Char → Bool} (h : ∀ ch, p ch = true → q ch = true) :
    ∀ s : List Char, runLen p s ≤ runLen q s := by
  intro s
  induction s with
  | nil => simp [runLen]
  | cons c cs ih =>
    simp only [runLen]
    by_cases hp : p c = true
    · rw [if_pos hp, if_pos (h c hp)]; omega
    · rw [if_neg hp]; omega

lemma runLen_le_length (p : Char → Bool) : ∀ s : List Char, runLen p s ≤ s.length := by
  intro s
  induction s with
  | nil => simp [runLen]
  | cons c cs ih =>
    simp only [runLen, List.length_cons]
    by_cases hp : p c = true
    · rw [if_pos hp]; omega
    · rw [if_neg hp]; omega

lemma effHi_le_effHi {hi : Option Nat} {a b : Nat} (h : a ≤ b) :
    effHi hi a ≤ effHi hi b := by
  cases hi <;> simp [effHi] <;> omega

lemma take_runLen {p : Char → Bool} : ∀ {s : List Char} {j : Nat},
    j ≤ runLen p s → ∀ ch ∈ s.take j, p ch = true := by
  intro s
  induction s with
  | nil => intro j _ ch hch; simp at hch
  | cons c cs ih =>
    intro j hj ch hch
    cases j with
    | zero => simp at hch
    | succ j0 =>
      simp only [runLen] at hj
      by_cases hp : p c = true
      · rw [if_pos hp] at hj
        simp only [List.take_succ_cons] at hch
        rcases List.mem_cons.mp hch with he | hm
        · exact he ▸ hp
        · exact ih (by omega) ch hm
      · rw [if_neg hp] at hj; omega

lemma mtch_sound : ∀ (r : RE) (s : List Char) (c : Caps)
    (k : List Char → Caps → MRes) (res : List Char × Caps),
    mtch r s c k = some res → ∃ t c1, Sat r s c t c1 ∧ k t c1 = some res := by
  intro r
  induction r with
  | eps =>
    intro s c k res h
    exact ⟨s, c, Sat.eps, h⟩
  | lit ch =>
    intro s c k res h
    cases s with
    | nil => simp [mtch] at h
    | cons x rest =>
      simp only [mtch] at h
      split at h
      · next hx => exact ⟨rest, c, hx ▸ Sat.lit, h⟩
      · simp at h
  | cls p =>
    intro s c k res h
    cases s with
    | nil => simp [mtch] at h
    | cons x rest =>
      simp only [mtch] at h
      split at h
      · next hx => exact ⟨rest, c, Sat.cls hx, h⟩
      · simp at h
  | cat r1 r2 ih1 ih2 =>
    intro s c k res h
    simp only [mtch] at h
    rcases ih1 s c _ res h with ⟨t, c1, hs1, h2⟩
    rcases ih2 t c1 k res h2 with ⟨u, c2, hs2, h3⟩
    exact ⟨u, c2, Sat.cat hs1 hs2, h3⟩
  | rep p lo hi lz =>
    intro s c k res h
    simp only [mtch] at h
    rcases tryCounts_eq_some h with ⟨j, hj, hk⟩
    have hb : lo ≤ j ∧ j ≤ effHi hi (runLen p s) := by
      cases lz with
      | true => simpa [mem_countsL] using hj
      | false => simpa [mem_countsG] using hj
    exact ⟨s.drop j, c, Sat.rep j hb.1 hb.2, hk⟩
  | group n r ih =>
    intro s c k res h
    simp only [mtch] at h
    rcases ih s c _ res h with ⟨t, c1, hs, hk⟩
    exact ⟨t, (n, s.take (s.length - t.length)) :: c1, Sat.group hs, hk⟩

lemma sat_mtch {r : RE} {s : List Char} {c : Caps} {t : List Char} {c1 : Caps}
    (hs : Sat r s c t c1) :
    ∀ k : List Char → Caps → MRes, (k t c1).isSome → (mtch r s c k).isSome := by
  induction hs with
  | eps => intro k hk; exact hk
  | lit => intro k hk; simpa [mtch] using hk
  | cls hp => intro k hk; simp only [mtch]; rw [if_pos hp]; exact hk
  | @rep p lo hi lz s c j hlo hhi =>
    intro k hk
    simp only [mtch]
    refine tryCounts_isSome ?_ hk
    cases lz with
    | true => rw [if_pos rfl]; exact mem_countsL.mpr ⟨hlo, hhi⟩
    | false => rw [if_neg (by simp)]; exact mem_countsG.mpr ⟨hlo, hhi⟩
  | cat h1 h2 ih1 ih2 =>
    intro k hk
    simp only [mtch]
    exact ih1 _ (ih2 _ hk)
  | group h ih =>
    intro k hk
    simp only [mtch]
    exact ih _ hk

lemma sat_caps {r : RE} {s : List Char} {c : Caps} {t : List Char} {c1 : Caps}
    (h : Sat r s c t c1) : ∀ c0, ∃ c2, Sat r s c0 t c2 := by
  induction h with
  | eps => intro c0; exact ⟨c0, Sat.eps⟩
  | lit => intro c0; exact ⟨c0, Sat.lit⟩
  | cls hp => intro c0; exact ⟨c0, Sat.cls hp⟩
  | rep j hlo hhi => intro c0; exact ⟨c0, Sat.rep j hlo hhi⟩
  | cat h1 h2 ih1 ih2 =>
    intro c0
    rcases ih1 c0 with ⟨ca, hca⟩
    rcases ih2 ca with ⟨cb, hcb⟩
    exact ⟨cb, Sat.cat hca hcb⟩
  | group h ih =>
    intro c0
    rcases ih c0 with ⟨ca, hca⟩
    exact ⟨_, Sat.group hca⟩

end Ballot

namespace Ballot

/-! ### Language inclusion: every fallback match is a primary match -/

lemma sat_mono {ra rb : RE} (hle : RLe ra rb) :
    ∀ {s : List Char} {c : Caps} {t : List Char} {c1 : Caps} (c0 : Caps),
    Sat ra s c t c1 → ∃ c2, Sat rb s c0 t c2 := by
  induction hle with
  | eps =>
    intro s c t c1 c0 h
    cases h
    exact ⟨c0, Sat.eps⟩
  | lit =>
    intro s c t c1 c0 h
    cases h
    exact ⟨c0, Sat.lit⟩
  | cls hpq =>
    intro s c t c1 c0 h
    cases h with
    | cls hp => exact ⟨c0, Sat.cls (hpq _ hp)⟩
  | rep hpq =>
    intro s c t c1 c0 h
    cases h with
    | rep j hlo hhi =>
      exact ⟨c0, Sat.rep j hlo
        (le_trans hhi (effHi_le_effHi (runLen_mono hpq _)))⟩
  | cat hl1 hl2 ih1 ih2 =>
    intro s c t c1 c0 h
    cases h with
    | cat h1 h2 =>
      rcases ih1 c0 h1 with ⟨ca, hca⟩
      rcases ih2 ca h2 with ⟨cb, hcb⟩
      exact ⟨cb, Sat.cat hca hcb⟩
  | group hl ih =>
    intro s c t c1 c0 h
    cases h with
    | group hin =>
      rcases ih c0 hin with ⟨ca, hca⟩
      exact ⟨_, Sat.group hca⟩
  | @litRep p ch lo hi lz n hch hlo hhi =>
    intro s c t c1 c0 h
    cases h with
    | lit =>
      have hr : 1 ≤ runLen p (ch :: t) := by
        simp only [runLen, if_pos hch]
        omega
      have hb : 1 ≤ effHi hi (runLen p (ch :: t)) := by
        cases hi with
        | none => simpa [effHi] using hr
        | some h2 =>
          simp only [effHi]
          exact Nat.le_min.mpr ⟨hhi h2 rfl, hr⟩
      exact ⟨_, Sat.group (Sat.rep 1 hlo hb)⟩

lemma rle_candTail : RLe (candTail 1 2 noNl) (candTail 2 3 anyCh) := by
  unfold candTail
  refine RLe.cat (RLe.rep (fun ch h => h)) ?_
  refine RLe.cat (RLe.group (RLe.rep (fun ch h => h))) ?_
  refine RLe.cat (RLe.rep (fun ch h => h)) ?_
  refine RLe.cat RLe.lit ?_
  exact RLe.cat (RLe.group (RLe.rep (fun ch _ => rfl))) RLe.lit

lemma rle_fallback_primary : RLe fallbackRE primaryRE := by
  unfold fallbackRE primaryRE
  refine RLe.cat ?_ (RLe.cat RLe.lit rle_candTail)
  refine RLe.litRep (by decide) (le_refl 1) ?_
  intro h hh
  cases hh
  omega

/-! ### From the executable search back to `Sat` and forth -/

lemma matchAt_isSome_iff (r : RE) (text : List Char) (i : Nat) :
    (matchAt r text i).isSome ↔ ∃ t c1, Sat r (text.drop i) [] t c1 := by
  unfold matchAt
  constructor
  · intro h
    cases hm : mtch r (text.drop i) [] (fun rest caps => some (rest, caps)) with
    | none => rw [hm] at h; simp at h
    | some res =>
      rcases mtch_sound r _ _ _ res hm with ⟨t, c1, hs, _⟩
      exact ⟨t, c1, hs⟩
  · rintro ⟨t, c1, hs⟩
    have hsome := sat_mtch hs (fun rest caps => some (rest, caps)) (by simp)
    cases hm : mtch r (text.drop i) [] (fun rest caps => some (rest, caps)) with
    | none => rw [hm] at hsome; simp at hsome
    | some res => simp

lemma searchGo_isSome_iff (r : RE) (text : List Char) :
    ∀ (fuel i : Nat), (searchGo r text fuel i).isSome ↔
      ∃ j, i ≤ j ∧ j < i + fuel ∧ (matchAt r text j).isSome := by
  intro fuel
  induction fuel with
  | zero =>
    intro i
    simp only [searchGo]
    constructor
    · intro h; simp at h
    · rintro ⟨j, h1, h2, _⟩; omega
  | succ f ih =>
    intro i
    simp only [searchGo]
    cases hm : matchAt r text i with
    | some m =>
      simp only [Option.isSome_some, true_iff]
      exact ⟨i, le_refl i, by omega, by rw [hm]; simp⟩
    | none =>
      rw [ih (i + 1)]
      constructor
      · rintro ⟨j, h1, h2, h3⟩
        exact ⟨j, by omega, by omega, h3⟩
      · rintro ⟨j, h1, h2, h3⟩
        have hne : i ≠ j := by
          intro he
          rw [← he, hm] at h3
          simp at h3
        exact ⟨j, by omega, by omega, h3⟩

lemma search_isSome_iff (r : RE) (text : List Char) :
    (search r text).isSome ↔ ∃ j, j ≤ text.length ∧ (matchAt r text j).isSome := by
  unfold search searchFrom
  rw [searchGo_isSome_iff]
  constructor
  · rintro ⟨j, _, h2, h3⟩
    exact ⟨j, by omega, h3⟩
  · rintro ⟨j, h1, h3⟩
    exact ⟨j, by omega, by omega, h3⟩

lemma finditer_eq_nil_iff (r : RE) (text : List Char) :
    finditer r text = [] ↔ search r text = none := by
  unfold finditer search
  simp only [fiGo]
  cases hs : searchFrom r text 0 <;> simp

lemma fallback_none_of_primary_empty {sec : List Char}
    (h : primaryMatches sec = []) : fallbackMatch sec = none := by
  cases hf : fallbackMatch sec with
  | none => rfl
  | some m =>
    exfalso
    have hfs : (search fallbackRE sec).isSome := by
      unfold fallbackMatch at hf
      rw [hf]
      simp
    rcases (search_isSome_iff _ _).mp hfs with ⟨j, hj, hmat⟩
    rcases (matchAt_isSome_iff _ _ _).mp hmat with ⟨t, c1, hsat⟩
    rcases sat_mono rle_fallback_primary [] hsat with ⟨c2, hsat2⟩
    have hpm : (matchAt primaryRE sec j).isSome :=
      (matchAt_isSome_iff _ _ _).mpr ⟨t, c2, hsat2⟩
    have hps : (search primaryRE sec).isSome :=
      (search_isSome_iff _ _).mpr ⟨j, hj, hpm⟩
    have hnone : search primaryRE sec = none := (finditer_eq_nil_iff _ _).mp h
    rw [hnone] at hps
    simp at hps

/-- C4 counterexample: the claim is false — there is no segment text on
which the primary strategy yields zero matches while the fallback yields a
candidate, because every string matched by the fallback pattern is also
matched by the primary pattern (the literal "1" sits inside the digit
group, and the DOTALL party capture is strictly more permissive). -/
theorem fallback_never_rescues_counterexample :
    ¬ ∃ sec : List Char, primaryMatches sec = [] ∧ (fallbackMatch sec).isSome := by
  rintro ⟨sec, hpm, hfb⟩
  rw [fallback_none_of_primary_empty hpm] at hfb
  simp at hfb

/-- C4 (amended): the fallback branch is dead code — whenever the primary
strategy yields zero matches, the fallback single-entry search also fails,
so the section yields no candidates at all. -/
theorem primary_empty_extract_empty (sec : List Char)
    (h : primaryMatches sec = []) : extractCandidates sec = [] := by
  unfold extractCandidates
  rw [h, fallback_none_of_primary_empty h]
  rfl

/-- C4 witness: the amended statement evaluated on a concrete segment with
no numbered entry. -/
theorem primary_empty_extract_empty_witness :
    primaryMatches "x".data = [] ∧ extractCandidates "x".data = [] :=
  ⟨by decide, primary_empty_extract_empty "x".data (by decide)⟩

end Ballot

namespace Ballot

/-! ### Decomposing the location match -/

lemma searchGo_eq_some {r : RE} {text : List Char} :
    ∀ {fuel i : Nat} {m : MatchR}, searchGo r text fuel i = some m →
    ∃ j, matchAt r text j = some m := by
  intro fuel
  induction fuel with
  | zero => intro i m h; simp [searchGo] at h
  | succ f ih =>
    intro i m h
    simp only [searchGo] at h
    cases hm : matchAt r text i with
    | some m2 =>
      rw [hm] at h
      exact ⟨i, by rw [hm]; exact h⟩
    | none =>
      rw [hm] at h
      exact ih h

lemma matchAt_caps_sat {r : RE} {text : List Char} {i : Nat} {m : MatchR}
    (h : matchAt r text i = some m) :
    ∃ t, Sat r (text.drop i) [] t m.caps := by
  unfold matchAt at h
  cases hm : mtch r (text.drop i) [] (fun rest caps => some (rest, caps)) with
  | none => rw [hm] at h; cases h
  | some res =>
    rw [hm] at h
    obtain ⟨rest, caps⟩ := res
    rcases mtch_sound r _ _ _ (rest, caps) hm with ⟨t, c1, hs, hk⟩
    have hk2 : (some (t, c1) : MRes) = some (rest, caps) := hk
    have h2 : (some ⟨i, i + ((text.drop i).length - rest.length), caps⟩ :
        Option MatchR) = some m := h
    injection hk2 with hk3
    injection h2 with h3
    have hc : c1 = caps := congrArg Prod.snd hk3
    rw [← h3]
    exact ⟨t, hc ▸ hs⟩

lemma sat_reStr : ∀ (l : List Char) {s t : List Char} {c c1 : Caps},
    Sat (reStr l) s c t c1 → s = l ++ t ∧ c1 = c := by
  intro l
  induction l with
  | nil =>
    intro s t c c1 h
    simp only [reStr, List.foldr_nil] at h
    cases h
    exact ⟨rfl, rfl⟩
  | cons x xs ih =>
    intro s t c c1 h
    simp only [reStr, List.foldr_cons] at h
    cases h with
    | cat h1 h2 =>
      cases h1 with
      | lit =>
        rcases ih (by simpa [reStr] using h2) with ⟨he, hc⟩
        exact ⟨by simp [he], hc⟩

/-- C8 (amended): the extracted location is group 1 of the first match of
the pattern at line 57, stripped: a non-empty run of uppercase, Ñ, comma,
and space characters, then the literal "CITY", then an arbitrary run of
non-newline characters up to a line break; when no match exists the field
is the sentinel "UNKNOWN".  The text after "CITY" may contain characters
outside the uppercase/comma/space alphabet. -/
theorem extractLocation_shape (text : List Char) :
    (search locRE text = none → extractLocation text = "UNKNOWN")
    ∧ ∀ m : MatchR, search locRE text = some m →
        extractLocation text = String.mk (stripChars (grp m 1))
        ∧ ∃ pre tl : List Char,
            grp m 1 = pre ++ "CITY".data ++ tl
            ∧ pre ≠ []
            ∧ (∀ ch ∈ pre, locCls ch = true)
            ∧ (∀ ch ∈ tl, ch ≠ '\n') := by
  constructor
  · intro h
    unfold extractLocation
    rw [h]
  · intro m hm
    refine ⟨by unfold extractLocation; rw [hm], ?_⟩
    have hsg : searchGo locRE text (text.length + 1 - 0) 0 = some m := hm
    rcases searchGo_eq_some hsg with ⟨j, hja⟩
    rcases matchAt_caps_sat hja with ⟨t, hsat⟩
    obtain ⟨mms, mme, mcaps⟩ := m
    set s : List Char := text.drop j with hsdef
    clear_value s
    unfold locRE at hsat
    cases hsat with
    | cat h1 h2 =>
      rename_i t1 cmid
      cases h2 with
      | lit =>
        cases h1 with
        | group hin =>
          rename_i cIn
          cases hin with
          | cat ha hb =>
            rename_i u1 ca
            cases ha with
            | rep j1 hlo1 hhi1 =>
              cases hb with
              | cat hc hd =>
                rename_i u2 cb
                rcases sat_reStr _ hc with ⟨he1, hcb⟩
                subst hcb
                generalize hgen : ('\n' :: t) = tfin at hd
                cases hd with
                | rep j2 hlo2 hhi2 =>
                  simp only [effHi] at hhi1 hhi2
                  have hu2 : u2 = List.take j2 u2 ++ '\n' :: t := by
                    conv_lhs => rw [← List.take_append_drop j2 u2]
                    rw [← hgen]
                  have hsA : s = (List.take j1 s ++ ("CITY".data ++ List.take j2 u2))
                      ++ '\n' :: t := by
                    conv_lhs => rw [← List.take_append_drop j1 s, he1, hu2]
                    simp [List.append_assoc]
                  refine ⟨s.take j1, u2.take j2, ?_, ?_, ?_, ?_⟩
                  · show List.take (s.length - (List.drop j2 u2).length) s
                        = List.take j1 s ++ "CITY".data ++ List.take j2 u2
                    rw [← hgen]
                    conv_lhs => rw [hsA]
                    rw [List.length_append, Nat.add_sub_cancel, List.take_left]
                    simp [List.append_assoc]
                  · intro hemp
                    have hlen := congrArg List.length hemp
                    rw [List.length_take, List.length_nil] at hlen
                    have hsl := runLen_le_length locCls s
                    omega
                  · exact take_runLen hhi1
                  · intro ch hch
                    have hn := take_runLen hhi2 ch hch
                    simpa [noNl, decide_eq_true_eq] using hn



/-- C8 witness: the amended statement evaluated at a concrete input whose
location line is "A CITY". -/
theorem extractLocation_shape_witness :
    extractLocation "A CITY\n".data
        = String.mk (stripChars (grp ⟨0, 7, [(1, "A CITY".data)]⟩ 1))
    ∧ ∃ pre tl : List Char,
        grp (⟨0, 7, [(1, "A CITY".data)]⟩ : MatchR) 1 = pre ++ "CITY".data ++ tl
        ∧ pre ≠ []
        ∧ (∀ ch ∈ pre, locCls ch = true)
        ∧ (∀ ch ∈ tl, ch ≠ '\n') :=
  (extractLocation_shape "A CITY\n".data).2 ⟨0, 7, [(1, "A CITY".data)]⟩ (by decide)

/-- C8 counterexample: the text after "CITY" on the matched line may
contain characters outside the uppercase/comma/space alphabet, which end up
in the extracted location verbatim, refuting the claimed alphabet
restriction. -/
theorem extractLocation_junk_counterexample :
    extractLocation "AB CITY x9\n".data = "AB CITY x9"
    ∧ 'x' ∈ "AB CITY x9".data ∧ locCls 'x' = false := by decide

end Ballot
